import Mathlib

/-!
# lmfetch retrieval pipeline: shallow embedding and verification

This file embeds the core retrieval pipeline of the `lmfetch` code base in
Lean 4 and proves (or refutes) the specified properties: budget-constrained
selection, budget-string parsing, stemming and keyword ranking, hybrid score
fusion, cache round-trips, chunker line-range invariants, and the in-memory
token-count cache.

Modelling conventions:
* JavaScript strings are modelled as `List Char` (`Str`).
* JavaScript numbers are modelled as `ℚ` (scores, similarity values) or `ℕ`
  (token counts, line numbers, budgets).  `Math.floor(budget * 0.95)` on an
  integer budget is modelled as `19 * budget / 20` in `ℕ`, and the comparison
  `x >= eb * 0.98` as `(x : ℚ) ≥ eb * 98 / 100`; for the integer ranges the
  program uses, the IEEE-double computations agree with these rationals.
* `Math.log` is kept abstract as a parameter `log : ℕ → ℚ` (it is applied
  only to positive integer match counts).
* External collaborators (SHA-256 hashing, the cl100k tokenizer, embedding
  providers) are parameters of the definitions that use them.
-/

/-- JavaScript strings are sequences of characters. -/
abbrev Str := List Char

/-- Decimal rendering of a natural, as in JS template interpolation of an
integer (`Nat.repr` produces the usual decimal digits). -/
def natToStr (n : ℕ) : Str := (Nat.repr n).toList

/-- `chunkers/types.ts`: a chunk of a source file.  `type` is one of the
construct-kind string literals; `name` is optional. -/
structure Chunk where
  id : Str
  filePath : Str
  relativePath : Str
  content : Str
  startLine : ℕ
  endLine : ℕ
  type : Str
  name : Option Str
  language : Str
  tokens : ℕ
deriving Repr, DecidableEq

/-- `chunkers/types.ts`: a chunk together with its relevance score. -/
structure ScoredChunk extends Chunk where
  score : ℚ
deriving Repr, DecidableEq

/-! ## Selector (`ContextBuilder.selectWithinBudget`, builder in utils.ts) -/

/-- `Math.floor(this.budget * 0.95)` for an integer budget. -/
def effectiveBudgetOf (budget : ℕ) : ℕ := 19 * budget / 20

/-- The stop test `currentTokens >= effectiveBudget * 0.98`. -/
def budgetStop (effectiveBudget currentTokens : ℕ) : Bool :=
  (effectiveBudget : ℚ) * 98 / 100 ≤ (currentTokens : ℚ)

/-- The body of the `for` loop of `selectWithinBudget`: each candidate costs
`chunk.tokens + 50`; it is accepted when the running total stays within the
effective budget, and the loop breaks once the running total passes 98% of
the effective budget (the break test runs at the end of every iteration). -/
def selectGo (effectiveBudget : ℕ) : List ScoredChunk → ℕ → List ScoredChunk
  | [], _ => []
  | c :: cs, currentTokens =>
    let chunkCost := c.tokens + 50
    if currentTokens + chunkCost ≤ effectiveBudget then
      c :: (if budgetStop effectiveBudget (currentTokens + chunkCost) then []
            else selectGo effectiveBudget cs (currentTokens + chunkCost))
    else
      if budgetStop effectiveBudget currentTokens then []
      else selectGo effectiveBudget cs currentTokens

/-- `ContextBuilder.selectWithinBudget`. -/
def selectWithinBudget (budget : ℕ) (chunks : List ScoredChunk) : List ScoredChunk :=
  selectGo (effectiveBudgetOf budget) chunks 0

/-- Total selection cost, `sum(selected.tokens + 50)`. -/
def selectionCost (chunks : List ScoredChunk) : ℕ :=
  (chunks.map (fun c => c.tokens + 50)).sum

/-! ## Budget parsing (`tokens.ts`: `parseBudget`) -/

/-- Numeric value of a digit string (most significant digit first). -/
def natOfDigits (ds : Str) : ℕ :=
  ds.foldl (fun a c => 10 * a + (c.toNat - '0'.toNat)) 0

/-- The multiplier attached to a budget suffix (`k|m`, case-insensitive). -/
def suffixMult (c : Char) : Option ℚ :=
  if c = 'k' ∨ c = 'K' then some 1000
  else if c = 'm' ∨ c = 'M' then some 1000000
  else none

/-- `Math.floor(value * mult)` where `value` is the decimal
`intPart.fracPart`; `parseFloat` of a decimal literal is modelled exactly. -/
def budgetValue (intPart fracPart : Str) (mult : ℚ) : ℕ :=
  (⌊((natOfDigits intPart : ℚ) + (natOfDigits fracPart : ℚ) / 10 ^ fracPart.length) * mult⌋).toNat

/-- `parseBudget`: match `^(\d+(?:\.\d+)?)(k|m)?$` (case-insensitive), apply
the suffix multiplier and floor; otherwise raise. -/
def parseBudget (budget : Str) : Except Str ℕ :=
  let ds := budget.takeWhile Char.isDigit
  let rest := budget.dropWhile Char.isDigit
  if ds.isEmpty then .error ("Invalid budget format".toList)
  else
    match rest with
    | [] => .ok (budgetValue ds [] 1)
    | c0 :: r =>
      if c0 = '.' then
        let fs := r.takeWhile Char.isDigit
        if fs.isEmpty then .error ("Invalid budget format".toList)
        else
          match r.dropWhile Char.isDigit with
          | [] => .ok (budgetValue ds fs 1)
          | c :: tail =>
            if tail = [] then
              match suffixMult c with
              | some m => .ok (budgetValue ds fs m)
              | none => .error ("Invalid budget format".toList)
            else .error ("Invalid budget format".toList)
      else
        if r = [] then
          match suffixMult c0 with
          | some m => .ok (budgetValue ds [] m)
          | none => .error ("Invalid budget format".toList)
        else .error ("Invalid budget format".toList)

/-- The language of `^\d+(\.\d+)?(k|m)?$` (case-insensitive), stated as an
explicit decomposition of the input. -/
def BudgetGrammar (s : Str) : Prop :=
  ∃ (d : Str) (f : Option Str) (c : Option Char),
    d ≠ [] ∧ (∀ ch ∈ d, ch.isDigit) ∧
    (∀ fs, f = some fs → fs ≠ [] ∧ ∀ ch ∈ fs, ch.isDigit) ∧
    (∀ ch, c = some ch → (suffixMult ch).isSome) ∧
    s = d ++ (match f with | none => [] | some fs => '.' :: fs) ++
        (match c with | none => [] | some ch => [ch])

/-! ## Stemmer (`rankers/keyword.ts`: `STEM_RULES`, `stem`) -/

/-- `STEM_RULES`: ordered suffix rewrite rules. -/
def STEM_RULES : List (Str × Str) :=
  [("tion".toList, "t".toList),
   ("sion".toList, "s".toList),
   ("ies".toList, "y".toList),
   ("ied".toList, "y".toList),
   ("ation".toList, "".toList),
   ("ement".toList, "".toList),
   ("ment".toList, "".toList),
   ("ing".toList, "".toList),
   ("ed".toList, "".toList),
   ("es".toList, "".toList),
   ("er".toList, "".toList),
   ("ly".toList, "".toList),
   ("e".toList, "".toList),
   ("s".toList, "".toList)]

/-- `word.replace(/suf$/, rep)` when `suf` is a suffix of `word`. -/
def rewriteSuffix (word suf rep : Str) : Str :=
  word.take (word.length - suf.length) ++ rep

/-- The rule loop of `stem`: try each rule in order; a rule applies when its
suffix matches and the rewrite keeps at least 3 characters, otherwise the
loop continues; if no rule applies the word is returned unchanged. -/
def stemGo (word : Str) : List (Str × Str) → Str
  | [] => word
  | (suf, rep) :: rs =>
    if suf.isSuffixOf word then
      let stemmed := rewriteSuffix word suf rep
      if 3 ≤ stemmed.length then stemmed else stemGo word rs
    else stemGo word rs

/-- `stem`: words shorter than 4 characters are returned unchanged. -/
def stem (word : Str) : Str :=
  if word.length < 4 then word else stemGo word STEM_RULES

/-! ## Tokenizer and keyword ranker (`rankers/keyword.ts`) -/

/-- `STOPWORDS`: English and domain-generic stopwords. -/
def STOPWORDS : List Str :=
  ["a", "an", "and", "are", "as", "at", "be", "by", "for", "from",
   "has", "have", "he", "in", "is", "it", "its", "of", "on", "or",
   "that", "the", "to", "was", "were", "will", "with", "this", "which",
   "how", "what", "when", "where", "who", "why", "can", "could", "would",
   "should", "may", "might", "must", "do", "does", "did", "done",
   "explain", "describe", "show", "tell", "find", "get", "called",
   "function", "class", "file", "code"].map String.toList

/-- A JS word character (`\w`): ASCII letter, digit, or underscore. -/
def isWordChar (c : Char) : Bool := c.isAlphanum ∨ c = '_'

/-- `replace(/([a-z])([A-Z])/g, "$1 $2")`: insert a space between a lowercase
letter and the uppercase letter that follows it. -/
def camelSplit : Str → Str
  | a :: b :: rest =>
    if a.isLower ∧ b.isUpper then a :: ' ' :: camelSplit (b :: rest)
    else a :: camelSplit (b :: rest)
  | l => l

/-- `split(/[\s\W]+/)` followed by dropping empty pieces: the maximal runs of
word characters (the empty pieces JS produces at the ends are removed by the
length filter anyway). -/
def wordRunsAux : Str → Str → List Str
  | [], acc => if acc.isEmpty then [] else [acc.reverse]
  | c :: rest, acc =>
    if isWordChar c then wordRunsAux rest (c :: acc)
    else if acc.isEmpty then wordRunsAux rest []
    else acc.reverse :: wordRunsAux rest []

/-- The word-character runs of a string. -/
def wordRuns (s : Str) : List Str := wordRunsAux s []

/-- `KeywordRanker.tokenize`: split camelCase, turn `_`/`-` into spaces,
lowercase, split on non-word characters, keep tokens of length > 1, then
optionally drop stopwords and optionally stem. -/
def tokenize (text : Str) (filterStopwords applyStemming : Bool) : List Str :=
  let t1 := camelSplit text
  let t2 := t1.map (fun c => if c = '_' ∨ c = '-' then ' ' else c)
  let t3 := t2.map Char.toLower
  let tokens0 := (wordRuns t3).filter (fun t => 1 < t.length)
  let tokens1 := if filterStopwords then tokens0.filter (fun t => ¬ t ∈ STOPWORDS)
                 else tokens0
  if applyStemming then tokens1.map stem else tokens1

/-- The `.\w+` matches of `extractImportantTerms`: each `.` followed by at
least one word character contributes its word part, lowercased. -/
def dotTerms : Str → List Str
  | [] => []
  | '.' :: rest =>
    let w := rest.takeWhile isWordChar
    if w.isEmpty then dotTerms rest
    else w.map Char.toLower :: dotTerms (rest.dropWhile isWordChar)
  | _ :: rest => dotTerms rest
termination_by s => s.length
decreasing_by
  · simp
  · have := (List.dropWhile_sublist isWordChar (l := rest)).length_le
    simp; omega
  · simp

/-- Remove quote characters, as `term.replace(/['"]/g, "")`. -/
def stripQuotes (s : Str) : Str :=
  s.filter (fun c => ¬ (c = '"' ∨ c = Char.ofNat 39))

/-- The `"([^"]+)"|'([^']+)'` matches of `extractImportantTerms`: each
properly closed, non-empty quoted substring contributes its body with quote
characters removed, lowercased. -/
def quotedTerms : Str → List Str
  | [] => []
  | c :: rest =>
    if c = '"' ∨ c = Char.ofNat 39 then
      let body := rest.takeWhile (fun d => ¬ d = c)
      let rest2 := rest.dropWhile (fun d => ¬ d = c)
      if body.isEmpty ∨ rest2.isEmpty then quotedTerms rest
      else (stripQuotes body).map Char.toLower :: quotedTerms rest2.tail
    else quotedTerms rest
termination_by s => s.length
decreasing_by
  · simp
  · have h2 := (List.dropWhile_sublist (fun d => ¬ d = c) (l := rest)).length_le
    have h3 := List.length_tail (rest.dropWhile (fun d => ¬ d = c))
    simp at h2 h3 ⊢
    omega
  · simp

/-- `KeywordRanker.extractImportantTerms`: the `.method` suffixes and quoted
substrings of the query (the JS `Set` is modelled as a list; only membership
is ever used). -/
def extractImportantTerms (query : Str) : List Str :=
  dotTerms query ++ quotedTerms query

/-- `t.includes(q) || q.includes(t)`: substring containment in either
direction. -/
def substrMatch (t q : Str) : Bool := decide (q <:+: t) ∨ decide (t <:+: q)

/-- `path.includes(sub)`. -/
def pathContains (path : Str) (sub : String) : Bool := decide (sub.toList <:+: path)

/-- The boost multiplier of `KeywordRanker.score`: 5.0 when the (stemmed)
query token is a member of the important-term set, else 1.0. -/
def boostMultiplier (importantTerms : List Str) (qt : Str) : ℚ :=
  if qt ∈ importantTerms then 5 else 1

/-- The per-query-token contribution of `KeywordRanker.score` (content,
path and name substring tallies plus the exact-match bonuses), given the
pre-tokenized chunk fields and the density factor.  `log` models
`Math.log` on the positive integer `contentMatches`. -/
def tokenContribution (log : ℕ → ℚ) (contentTokens pathTokens nameTokens : List Str)
    (densityFactor : ℚ) (importantTerms : List Str) (qt : Str) : ℚ :=
  let boost := boostMultiplier importantTerms qt
  let contentMatches := (contentTokens.filter (fun t => substrMatch t qt)).length
  let normalizedContentScore : ℚ :=
    if 0 < contentMatches then (1 + log contentMatches) * (1 + densityFactor) else 0
  let pathMatches := (pathTokens.filter (fun t => substrMatch t qt)).length
  let nameMatches := (nameTokens.filter (fun t => substrMatch t qt)).length
  normalizedContentScore * 1 * boost
    + pathMatches * 2 * boost
    + nameMatches * 3 * boost
    + (if qt ∈ contentTokens then 2 * boost else 0)
    + (if qt ∈ pathTokens then 10 * boost else 0)
    + (if qt ∈ nameTokens then 20 * boost else 0)

/-- `KeywordRanker.score`: sum the per-token contributions, then apply the
all-tokens bonus and the path penalties. -/
def scoreChunk (log : ℕ → ℚ) (chunk : Chunk) (queryTokens importantTerms : List Str) : ℚ :=
  let contentTokens := tokenize chunk.content false true
  let pathTokens := tokenize chunk.relativePath false true
  let nameTokens := match chunk.name with
    | some n => tokenize n false true
    | none => []
  let densityFactor : ℚ := min 1 (200 / (max contentTokens.length 1 : ℚ))
  let base := queryTokens.foldl
    (fun acc qt =>
      acc + tokenContribution log contentTokens pathTokens nameTokens
              densityFactor importantTerms qt) 0
  let allTokensPresent := queryTokens.all (fun qt =>
    contentTokens.any (fun t => substrMatch t qt) ∨
    pathTokens.any (fun t => substrMatch t qt) ∨
    nameTokens.any (fun t => substrMatch t qt))
  let s1 := if allTokensPresent ∧ 1 < queryTokens.length then base * (3 / 2) else base
  let s2 := if pathContains chunk.relativePath ".test." ∨
               pathContains chunk.relativePath ".spec." ∨
               pathContains chunk.relativePath "__fixtures__" ∨
               pathContains chunk.relativePath "__tests__" then s1 * (1 / 2) else s1
  let s3 := if pathContains chunk.relativePath "/codemod/" ∨
               pathContains chunk.relativePath "/codemods/" then s2 * (3 / 10) else s2
  if pathContains chunk.relativePath "prepare" ∧
     ¬ queryTokens.any (fun t => pathContains t "prepar") then s3 * (7 / 10) else s3

/-- Stable insertion step for descending sort: the inserted element comes
from earlier in the input list, so it goes in front of elements whose score
is not larger. -/
def insertDesc (c : ScoredChunk) : List ScoredChunk → List ScoredChunk
  | [] => [c]
  | d :: ds => if d.score ≤ c.score then c :: d :: ds else d :: insertDesc c ds

/-- `scored.sort((a, b) => b.score - a.score)`: JS sort with a consistent
comparator is stable and sorted, which determines the output uniquely; a
stable insertion sort realizes it. -/
def sortByScoreDesc : List ScoredChunk → List ScoredChunk
  | [] => []
  | c :: cs => insertDesc c (sortByScoreDesc cs)

/-- `KeywordRanker.rank`: tokenize the query with stopword filtering and
stemming; with no surviving token every chunk scores 0; otherwise score all
chunks and sort by score descending. -/
def keywordRank (log : ℕ → ℚ) (chunks : List Chunk) (query : Str) : List ScoredChunk :=
  let queryTokens := tokenize query true true
  if queryTokens.isEmpty then chunks.map (fun c => { c with score := 0 })
  else
    let importantTerms := extractImportantTerms query
    let scored := chunks.map (fun c =>
      { c with score := scoreChunk log c queryTokens importantTerms })
    sortByScoreDesc scored

/-! ## Hybrid ranker (`rankers/hybrid.ts`) and score fusion -/

/-- `utils.ts` `normalize`: scale a score list linearly to `[0, 1]`; when
all scores are equal every normalized score is 0.5. -/
def normalizeScores (scores : List ℚ) : List ℚ :=
  match scores with
  | [] => []
  | s0 :: rest =>
    let mn := rest.foldl min s0
    let mx := rest.foldl max s0
    let range := mx - mn
    if range = 0 then scores.map (fun _ => 1 / 2)
    else scores.map (fun s => (s - mn) / range)

/-- `HybridRanker.getImportance`: the file-importance map value (default
0.5), times the markdown penalty 0.6 for markdown/mdx chunks. -/
def getImportance (importanceScores : List (Str × ℚ)) (chunk : Chunk) : ℚ :=
  let importance := (List.lookup chunk.filePath importanceScores).getD (1 / 2)
  if chunk.language = "markdown".toList ∨ chunk.language = "mdx".toList then
    importance * (3 / 5)
  else importance

/-- The non-fast path of `HybridRanker.rank`, before the final sort: run the
keyword ranker, collect its (descending-sorted) scores, normalize them, and
fuse with the embedding score (looked up by chunk id; absent ids score 0)
and the importance score: `0.4 * keyword + 0.4 * embedding + 0.2 *
importance`.  The external embedding stage is the parameter
`embeddingScoreMap`, an association of chunk ids to cosine-similarity
scores.  Note the source indexes `normalizedKeyword` by the chunk's position
in the *original* list while the array holds scores in *sorted* order. -/
noncomputable def hybridScores (log : ℕ → ℚ) (importanceScores : List (Str × ℚ))
    (embeddingScoreMap : List (Str × ℝ)) (chunks : List Chunk) (query : Str) :
    List (Chunk × ℝ) :=
  let keywordScored := keywordRank log chunks query
  let keywordScores := keywordScored.map (fun c => c.score)
  let normalizedKeyword := normalizeScores keywordScores
  chunks.enum.map (fun p =>
    let keywordScore : ℚ := normalizedKeyword.getD p.1 0
    let embeddingScore : ℝ := ((List.lookup p.2.id embeddingScoreMap).getD 0)
    let importanceScore : ℚ := getImportance importanceScores p.2
    (p.2, (keywordScore : ℝ) * (4 / 10) + embeddingScore * (4 / 10)
            + (importanceScore : ℝ) * (2 / 10)))

/-- `utils.ts` `cosineSimilarity`: throws on mismatched lengths, returns 0
when either vector has zero magnitude, else the cosine of the angle. -/
noncomputable def cosineSimilarity (a b : List ℝ) : Except String ℝ :=
  if a.length ≠ b.length then .error "Vectors must have the same length"
  else
    let dot := ((a.zip b).map (fun p => p.1 * p.2)).sum
    let normA := (a.map (fun x => x * x)).sum
    let normB := (b.map (fun x => x * x)).sum
    let magnitude := Real.sqrt normA * Real.sqrt normB
    .ok (if magnitude = 0 then 0 else dot / magnitude)

/-! ## Chunker (`chunkers/code.ts`: `CodeChunker`)

The per-line regex dispatch (`PATTERNS[language]`, first matching pattern
per line) is abstracted as a function `matchLine : Str → Option (Str ×
Option Str)` giving the construct kind and captured name of the first
pattern matching the line, or `none`.  SHA-256 (`hashContent`) is the
parameter `hash`; token counting (`countTokens`) is the parameter `ct`. -/

/-- `MAX_CHUNK_LINES`. -/
def MAX_CHUNK_LINES : ℕ := 200

/-- `MIN_CHUNK_LINES`. -/
def MIN_CHUNK_LINES : ℕ := 10

/-- A detected boundary: 0-indexed line, construct kind, optional name. -/
structure Boundary where
  line : ℕ
  type : Str
  name : Option Str
deriving Repr, DecidableEq

/-- `content.split("\n")`. -/
def splitLines (content : Str) : List Str := content.splitOn '\n'

/-- `lines.join("\n")` (used by `chunkLines.join`). -/
def joinLines (lines : List Str) : Str := List.intercalate ['\n'] lines

/-- `lines.slice(a, b)` for `a ≤ b`. -/
def sliceLines (lines : List Str) (a b : ℕ) : List Str :=
  (lines.drop a).take (b - a)

/-- `CodeChunker.findBoundaries`: walk the lines with their index, record a
boundary for every line some pattern matches. -/
def findBoundariesAux (matchLine : Str → Option (Str × Option Str)) :
    List Str → ℕ → List Boundary
  | [], _ => []
  | l :: ls, i =>
    match matchLine l with
    | some (t, n) => { line := i, type := t, name := n } :: findBoundariesAux matchLine ls (i + 1)
    | none => findBoundariesAux matchLine ls (i + 1)

/-- `CodeChunker.findBoundaries` starting at line 0. -/
def findBoundaries (matchLine : Str → Option (Str × Option Str)) (lines : List Str) :
    List Boundary :=
  findBoundariesAux matchLine lines 0

/-- The id string hashed by the chunker: `${filePath}:${line}` with the
0-indexed line. -/
def chunkKey (filePath : Str) (line : ℕ) : Str := filePath ++ ':' :: natToStr line

/-- `CodeChunker.splitLargeChunk`: cut `lines` (the lines of one oversized
candidate starting at 0-indexed `startOffset`) into consecutive slices of at
most `MAX_CHUNK_LINES`; slices after the first carry `name + " (continued)"`
(JS renders a missing name as the string "undefined"). -/
def splitLargeChunk (hash : Str → Str) (ct : Str → ℕ) (lines : List Str) (startOffset : ℕ)
    (filePath relativePath language : Str) (type : Str) (name : Option Str) : List Chunk :=
  (List.range ((lines.length + (MAX_CHUNK_LINES - 1)) / MAX_CHUNK_LINES)).map (fun j =>
    let i := MAX_CHUNK_LINES * j
    let e := min (i + MAX_CHUNK_LINES) lines.length
    let chunkLines := sliceLines lines i e
    let chunkContent := joinLines chunkLines
    { id := hash (chunkKey filePath (startOffset + i))
      filePath := filePath
      relativePath := relativePath
      content := chunkContent
      startLine := startOffset + i + 1
      endLine := startOffset + e
      type := type
      name := if j = 0 then name
              else some ((name.getD ("undefined".toList)) ++ " (continued)".toList)
      language := language
      tokens := ct chunkContent })

/-- `CodeChunker.chunkBySize`: the whole file as one chunk when it has at
most `MAX_CHUNK_LINES` lines, else consecutive `MAX_CHUNK_LINES`-line
slices, all of kind `section`. -/
def chunkBySize (hash : Str → Str) (ct : Str → ℕ)
    (content filePath relativePath language : Str) : List Chunk :=
  let lines := splitLines content
  if lines.length ≤ MAX_CHUNK_LINES then
    [{ id := hash (chunkKey filePath 0)
       filePath := filePath
       relativePath := relativePath
       content := content
       startLine := 1
       endLine := lines.length
       type := "section".toList
       name := none
       language := language
       tokens := ct content }]
  else
    (List.range ((lines.length + (MAX_CHUNK_LINES - 1)) / MAX_CHUNK_LINES)).map (fun j =>
      let i := MAX_CHUNK_LINES * j
      let e := min (i + MAX_CHUNK_LINES) lines.length
      let chunkLines := sliceLines lines i e
      let chunkContent := joinLines chunkLines
      { id := hash (chunkKey filePath i)
        filePath := filePath
        relativePath := relativePath
        content := chunkContent
        startLine := i + 1
        endLine := e
        type := "section".toList
        name := none
        language := language
        tokens := ct chunkContent })

/-- The boundary loop of `CodeChunker.chunk`: each boundary starts a
candidate running to the line before the next boundary (or EOF); candidates
shorter than `MIN_CHUNK_LINES` are skipped when the file has more than one
boundary (`multi`); oversized candidates are split. -/
def chunkLoop (hash : Str → Str) (ct : Str → ℕ) (lines : List Str)
    (filePath relativePath language : Str) (multi : Bool) : List Boundary → List Chunk
  | [] => []
  | b :: bs =>
    let start := b.line
    let endIdx := match bs with
      | [] => lines.length - 1
      | b2 :: _ => b2.line - 1
    let chunkLines := sliceLines lines start (endIdx + 1)
    let chunkContent := joinLines chunkLines
    let rest := chunkLoop hash ct lines filePath relativePath language multi bs
    if chunkLines.length < MIN_CHUNK_LINES ∧ multi then rest
    else if MAX_CHUNK_LINES < chunkLines.length then
      splitLargeChunk hash ct chunkLines start filePath relativePath language b.type b.name
        ++ rest
    else
      { id := hash (chunkKey filePath start)
        filePath := filePath
        relativePath := relativePath
        content := chunkContent
        startLine := start + 1
        endLine := endIdx + 1
        type := b.type
        name := b.name
        language := language
        tokens := ct chunkContent } :: rest

/-- `CodeChunker.chunk`: dispatch to size chunking when the language has no
patterns (`hasPatterns = false`) or no boundaries were found; otherwise run
the boundary loop and prepend the preamble chunk when the lines before the
first boundary number at least `MIN_CHUNK_LINES`. -/
def codeChunk (hash : Str → Str) (ct : Str → ℕ)
    (matchLine : Str → Option (Str × Option Str)) (hasPatterns : Bool)
    (content filePath relativePath language : Str) : List Chunk :=
  let lines := splitLines content
  if hasPatterns = false then chunkBySize hash ct content filePath relativePath language
  else
    match h : findBoundaries matchLine lines with
    | [] => chunkBySize hash ct content filePath relativePath language
    | b0 :: bs =>
      let body := chunkLoop hash ct lines filePath relativePath language
        (0 < bs.length) (b0 :: bs)
      if 0 < b0.line ∧ MIN_CHUNK_LINES ≤ (sliceLines lines 0 b0.line).length then
        { id := hash (chunkKey filePath 0)
          filePath := filePath
          relativePath := relativePath
          content := joinLines (sliceLines lines 0 b0.line)
          startLine := 1
          endLine := b0.line
          type := "section".toList
          name := some ("imports/preamble".toList)
          language := language
          tokens := ct (joinLines (sliceLines lines 0 b0.line)) } :: body
      else body

/-! ## Chunk cache (`cache.ts`) and the builder's cache-hot path -/

/-- `cache.ts`: a row of the `chunks` relation (the autoincrement id is
immaterial to the claims and omitted). -/
structure ChunkRecord where
  content : Str
  start_line : ℕ
  end_line : ℕ
  chunk_type : Str
  name : Option Str
deriving Repr, DecidableEq

/-- `Cache.setChunks`: replace the rows for a file with one row per chunk,
in chunk order; a falsy (`undefined` or empty) name is stored as NULL. -/
def setChunksRows (chunks : List Chunk) : List ChunkRecord :=
  chunks.map (fun c =>
    { content := c.content
      start_line := c.startLine
      end_line := c.endLine
      chunk_type := c.type
      name := match c.name with
        | some n => if n = [] then none else some n
        | none => none })

/-- `sources/types.ts`: the fields of a `SourceFile` the cache path uses. -/
structure SourceFile where
  path : Str
  relativePath : Str
  content : Str
  language : Str
  mtime : ℚ
deriving Repr, DecidableEq

/-- The cached-chunk load of `ContextBuilder.build`: a chunk is rebuilt from
each row with id `` `${file.path}:${cached.start_line}` `` (the raw template
string, over the 1-indexed stored start line) and the token count of the
row's content (`tokenCache.count`, parameter `ct`). -/
def loadCachedChunk (ct : Str → ℕ) (file : SourceFile) (r : ChunkRecord) : Chunk :=
  { id := file.path ++ ':' :: natToStr r.start_line
    filePath := file.path
    relativePath := file.relativePath
    content := r.content
    startLine := r.start_line
    endLine := r.end_line
    type := r.chunk_type
    name := r.name
    language := file.language
    tokens := ct r.content }

/-- All chunks of a file reloaded from its cache rows. -/
def loadCachedChunks (ct : Str → ℕ) (file : SourceFile) (rows : List ChunkRecord) :
    List Chunk :=
  rows.map (loadCachedChunk ct file)

/-- `Cache.hasCachedChunks` for a single stored file row: the stored mtime
must be at least the query mtime (`mtime >= ?`) and at least one chunk row
must exist. -/
def hasCachedChunks (storedMtime : ℚ) (rows : List ChunkRecord) (mtime : ℚ) : Bool :=
  mtime ≤ storedMtime ∧ 0 < rows.length

/-! ## Token-count cache (`chunking-parallel.ts`: `TokenCache`) -/

/-- `TokenCache.hash`: texts shorter than 1000 characters are keyed by their
first 100 characters plus their length; longer texts additionally sample
their last 100 characters. -/
def tokenKey (text : Str) : Str :=
  if text.length < 1000 then text.take 100 ++ natToStr text.length
  else text.take 100 ++ text.drop (text.length - 100) ++ natToStr text.length

/-- `TokenCache.count`: look the key up, else compute `countTokens` (the
external tokenizer, parameter `countTokensF`) and memoize.  Returns the
count and the updated cache. -/
def tokenCacheCount (countTokensF : Str → ℕ) (cache : List (Str × ℕ)) (text : Str) :
    ℕ × List (Str × ℕ) :=
  match List.lookup (tokenKey text) cache with
  | some n => (n, cache)
  | none => (countTokensF text, (tokenKey text, countTokensF text) :: cache)

/-! ## Theorems -/

/-- Helper: the selection loop keeps `currentTokens + cost of the rest`
within the effective budget. -/
theorem selectGo_cost_le (eb : ℕ) (cs : List ScoredChunk) :
    ∀ cur : ℕ, cur ≤ eb → cur + selectionCost (selectGo eb cs cur) ≤ eb := by
  induction cs with
  | nil =>
    intro cur h
    simpa [selectGo, selectionCost] using h
  | cons c cs ih =>
    intro cur h
    simp only [selectGo]
    by_cases hacc : cur + (c.tokens + 50) ≤ eb
    · rw [if_pos hacc]
      by_cases hstop : budgetStop eb (cur + (c.tokens + 50)) = true
      · simp only [hstop, if_true]
        simp [selectionCost]
        omega
      · simp only [hstop, if_false]
        have := ih (cur + (c.tokens + 50)) hacc
        simp [selectionCost] at this ⊢
        omega
    · rw [if_neg hacc]
      by_cases hstop : budgetStop eb cur = true
      · simp only [hstop, if_true]
        simpa [selectionCost] using h
      · simp only [hstop, if_false]
        exact ih cur h

/-- C1.  The selector packs ranked chunks greedily at cost `tokens + 50`
each, accepting a chunk only when the running total stays within the
effective budget `⌊0.95 · budget⌋` (= `19 * budget / 20`) and stopping once
the running total reaches 98% of it; consequently the total cost
`sum(selected.tokens + 50)` of every selection is at most the effective
budget. -/
theorem selectWithinBudget_cost_le (budget : ℕ) (chunks : List ScoredChunk) :
    selectionCost (selectWithinBudget budget chunks) ≤ effectiveBudgetOf budget := by
  simpa using selectGo_cost_le (effectiveBudgetOf budget) chunks 0 (Nat.zero_le _)

/-- Helper: the rule loop of the stemmer never returns fewer than 3
characters when the input has at least 3. -/
theorem stemGo_min_length (w : Str) (rs : List (Str × Str)) (h : 3 ≤ w.length) :
    3 ≤ (stemGo w rs).length := by
  induction rs with
  | nil => simpa [stemGo] using h
  | cons r rs ih =>
    obtain ⟨suf, rep⟩ := r
    simp only [stemGo]
    by_cases hs : suf.isSuffixOf w = true
    · rw [if_pos hs]
      by_cases hl : 3 ≤ (rewriteSuffix w suf rep).length
      · rwa [if_pos hl]
      · rwa [if_neg hl]
    · rwa [if_neg hs]

/-- C7.  The stemmer returns words shorter than 4 characters unchanged, and
(on the rule list `tion→t, sion→s, ies→y, ied→y, ation→∅, ement→∅, ment→∅,
ing→∅, ed→∅, es→∅, er→∅, ly→∅, e→∅, s→∅`, tried in order, a rule being
refused when its rewrite would leave fewer than 3 characters) the returned
stem of any word of length at least 3 has length at least 3. -/
theorem stem_short_unchanged_and_min_length :
    (∀ w : Str, w.length < 4 → stem w = w) ∧
    (∀ w : Str, 3 ≤ w.length → 3 ≤ (stem w).length) := by
  constructor
  · intro w h
    simp [stem, h]
  · intro w h
    unfold stem
    by_cases h4 : w.length < 4
    · simpa [h4] using h
    · rw [if_neg h4]
      exact stemGo_min_length w STEM_RULES h

/-- Witness for C7 at the concrete inputs "ab" (too short to stem) and
"carries" (stems to "carry" length 5, and in any case at least 3). -/
theorem stem_short_unchanged_and_min_length_witness :
    stem ("ab".toList) = "ab".toList ∧ 3 ≤ (stem ("carries".toList)).length :=
  ⟨stem_short_unchanged_and_min_length.1 ("ab".toList) (by decide),
   stem_short_unchanged_and_min_length.2 ("carries".toList) (by decide)⟩

/-- C8 counterexample.  The token cache key is not the content: two distinct
101-character texts sharing their first 100 characters and their length get
the same key, so after counting the first, counting the second returns the
first text's count even under a tokenizer that distinguishes them.  (The
claimed property "count(text) = countTokens(text) for every text, and no
two distinct texts ever share a cache entry" is therefore false.) -/
theorem tokenCache_collision_cex :
    tokenKey (List.replicate 100 'x' ++ ['a']) = tokenKey (List.replicate 100 'x' ++ ['b'])
    ∧ (List.replicate 100 'x' ++ ['a'] : Str) ≠ List.replicate 100 'x' ++ ['b']
    ∧ (tokenCacheCount
         (fun t => if t = List.replicate 100 'x' ++ ['a'] then 1 else 2)
         (tokenCacheCount
           (fun t => if t = List.replicate 100 'x' ++ ['a'] then 1 else 2)
           [] (List.replicate 100 'x' ++ ['a'])).2
         (List.replicate 100 'x' ++ ['b'])).1 = 1
    ∧ (fun t => if t = List.replicate 100 'x' ++ ['a'] then 1 else 2)
        (List.replicate 100 'x' ++ ['b']) = 2 := by
  refine ⟨by decide, by decide, by decide, by decide⟩

/-- C8 (amended).  The token cache is keyed by a sampled fingerprint (first
100 characters plus length; long texts also sample their last 100
characters), not by content.  `count` is transparent whenever the text's
key is not already cached — in particular on the first call of each key —
and distinct texts with equal fingerprints share one entry. -/
theorem tokenCache_fresh_key_transparent
    (countTokensF : Str → ℕ) (cache : List (Str × ℕ)) (text : Str)
    (hfresh : List.lookup (tokenKey text) cache = none) :
    (tokenCacheCount countTokensF cache text).1 = countTokensF text
    ∧ (tokenCacheCount countTokensF cache text).2 =
        (tokenKey text, countTokensF text) :: cache := by
  simp [tokenCacheCount, hfresh]

/-- Witness for C8 (amended) on the empty cache and text "ab". -/
theorem tokenCache_fresh_key_transparent_witness :
    (tokenCacheCount (fun t => t.length) [] ("ab".toList)).1 = ("ab".toList).length
    ∧ (tokenCacheCount (fun t => t.length) [] ("ab".toList)).2 =
        (tokenKey ("ab".toList), ("ab".toList).length) :: [] :=
  tokenCache_fresh_key_transparent (fun t => t.length) [] ("ab".toList) (by decide)

/-- Chunk fixture: a chunk with no occurrence of "login" anywhere. -/
def cA : Chunk :=
  { id := "idA".toList
    filePath := "src/a.ts".toList
    relativePath := "a.ts".toList
    content := "zz".toList
    startLine := 1
    endLine := 2
    type := "function".toList
    name := none
    language := "typescript".toList
    tokens := 4 }

/-- Chunk fixture: a chunk named `login`. -/
def cB : Chunk :=
  { id := "idB".toList
    filePath := "src/b.ts".toList
    relativePath := "b.ts".toList
    content := "zz".toList
    startLine := 1
    endLine := 2
    type := "function".toList
    name := some ("login".toList)
    language := "typescript".toList
    tokens := 4 }

/-- C5 counterexample.  Important terms are collected *unstemmed*
("​.execute" contributes "execute") while query tokens are *stemmed*
("execute" becomes "execut"), and the boost test compares the stemmed token
against the unstemmed set; so for the query ".execute" the derived query
token "execut" is scored with boost 1, not 5 as claimed. -/
theorem important_term_stemming_cex :
    tokenize (".execute".toList) true true = ["execut".toList]
    ∧ extractImportantTerms (".execute".toList) = ["execute".toList]
    ∧ boostMultiplier (extractImportantTerms (".execute".toList)) ("execut".toList) = 1 := by
  have heval : extractImportantTerms (".execute".toList) = ["execute".toList] := by
    simp +decide [extractImportantTerms, dotTerms, quotedTerms, isWordChar]
  have hmem : ¬ ("execut".toList ∈ extractImportantTerms (".execute".toList)) := by
    rw [heval]; decide
  refine ⟨by decide, heval, ?_⟩
  unfold boostMultiplier
  rw [heval, if_neg (by decide)]

/-- Helper: a per-token contribution with boost 5 is exactly 5 times the
contribution with boost 1. -/
theorem tokenContribution_boost (log : ℕ → ℚ) (cT pT nT : List Str) (d : ℚ)
    (imp : List Str) (t : Str) (h : t ∈ imp) :
    tokenContribution log cT pT nT d imp t = 5 * tokenContribution log cT pT nT d [] t := by
  unfold tokenContribution boostMultiplier
  rw [if_pos h, if_neg (List.not_mem_nil t)]
  split_ifs <;> ring

/-- C5 (amended).  The 5× boost applies to a (stemmed) query token exactly
when that token is itself a member of the unstemmed important-term set — so
terms whose stem equals the raw term (e.g. ".login") are boosted, while
terms changed by stemming (e.g. ".execute" → "execut") are not.  For a
single-token query whose token is in the set, the whole chunk score is
exactly 5 times the unboosted score. -/
theorem scoreChunk_important_boost (log : ℕ → ℚ) (c : Chunk) (t : Str)
    (imp : List Str) (h : t ∈ imp) :
    scoreChunk log c [t] imp = 5 * scoreChunk log c [t] [] := by
  unfold scoreChunk
  simp only [List.foldl_cons, List.foldl_nil, zero_add]
  rw [tokenContribution_boost _ _ _ _ _ _ _ h]
  split_ifs <;> ring

/-- Witness for C5 (amended) on the chunk named `login` and the token
"login" marked important. -/
theorem scoreChunk_important_boost_witness :
    scoreChunk (fun _ => 0) cB ["login".toList] ["login".toList] =
      5 * scoreChunk (fun _ => 0) cB ["login".toList] [] :=
  scoreChunk_important_boost (fun _ => 0) cB ("login".toList) ["login".toList] (by decide)

/-- Helper: taking/dropping while `p` holds splits exactly at a prepended
all-`p` block when the remainder starts with a non-`p` element. -/
theorem takeWhile_dropWhile_append (p : Char → Bool) (d rest : Str)
    (h1 : ∀ a ∈ d, p a = true)
    (h2 : ∀ x, rest.head? = some x → p x = false) :
    (d ++ rest).takeWhile p = d ∧ (d ++ rest).dropWhile p = rest := by
  induction d with
  | nil =>
    simp only [List.nil_append]
    cases rest with
    | nil => simp
    | cons x xs =>
      have hx := h2 x rfl
      simp [List.takeWhile_cons, List.dropWhile_cons, hx]
  | cons a d ih =>
    have ha := h1 a (List.mem_cons_self a d)
    have ih2 := ih (fun b hb => h1 b (List.mem_cons_of_mem a hb))
    simp [List.takeWhile_cons, List.dropWhile_cons, ha, ih2.1, ih2.2]

/-- Helper: the characters accepted as budget suffixes. -/
theorem suffixMult_isSome_iff (c : Char) :
    (suffixMult c).isSome = true ↔ (c = 'k' ∨ c = 'K' ∨ c = 'm' ∨ c = 'M') := by
  unfold suffixMult
  split_ifs with h1 h2 <;> simp_all <;> tauto

/-- Helper: budget suffix characters are not digits. -/
theorem suffixMult_not_digit (c : Char) (h : (suffixMult c).isSome = true) :
    c.isDigit = false := by
  rcases (suffixMult_isSome_iff c).mp h with rfl | rfl | rfl | rfl <;> decide


/-- Helper: backward direction of the grammar characterization — every
string of the budget grammar parses successfully. -/
theorem parseBudget_ok_of_grammar (s : Str) (hg : BudgetGrammar s) :
    (parseBudget s).isOk = true := by
  obtain ⟨d, f, c, hdne, hddig, hf, hc, rfl⟩ := hg
  have hdig : ∀ a ∈ d, Char.isDigit a = true := fun a ha => hddig a ha
  cases f with
  | none =>
    cases c with
    | none =>
      have hsplit := takeWhile_dropWhile_append Char.isDigit d [] hdig (by simp)
      simp only [List.append_nil] at hsplit ⊢
      simp only [parseBudget, hsplit.1, hsplit.2]
      rw [if_neg (by simpa [List.isEmpty_iff] using hdne)]
      rfl
    | some ch =>
      have hnd : Char.isDigit ch = false := suffixMult_not_digit ch (hc ch rfl)
      have hsplit := takeWhile_dropWhile_append Char.isDigit d [ch] hdig
        (by intro x hx; cases hx; exact hnd)
      rcases (suffixMult_isSome_iff ch).mp (hc ch rfl) with rfl | rfl | rfl | rfl <;>
      · simp only [List.append_nil] at hsplit ⊢
        simp only [parseBudget, hsplit.1, hsplit.2]
        rw [if_neg (by simpa [List.isEmpty_iff] using hdne)]
        simp [suffixMult, Except.isOk, Except.toBool]
  | some fs =>
    have hfs := hf fs rfl
    have hfdig : ∀ a ∈ fs, Char.isDigit a = true := fun a ha => hfs.2 a ha
    cases c with
    | none =>
      have hsplit := takeWhile_dropWhile_append Char.isDigit d ('.' :: fs) hdig
        (by intro x hx; cases hx; decide)
      have hsplit2 := takeWhile_dropWhile_append Char.isDigit fs [] hfdig (by simp)
      simp only [List.append_nil] at hsplit hsplit2 ⊢
      simp only [parseBudget, hsplit.1, hsplit.2]
      rw [if_neg (by simpa [List.isEmpty_iff] using hdne)]
      rw [if_pos trivial]
      simp only [hsplit2.1, hsplit2.2]
      rw [if_neg (by simpa [List.isEmpty_iff] using hfs.1)]
      rfl
    | some ch =>
      have hnd : Char.isDigit ch = false := suffixMult_not_digit ch (hc ch rfl)
      have hsplit := takeWhile_dropWhile_append Char.isDigit d ('.' :: (fs ++ [ch])) hdig
        (by intro x hx; cases hx; decide)
      have hsplit2 := takeWhile_dropWhile_append Char.isDigit fs [ch] hfdig
        (by intro x hx; cases hx; exact hnd)
      have hassoc : d ++ ('.' :: fs) ++ [ch] = d ++ ('.' :: (fs ++ [ch])) := by simp
      rw [hassoc]
      rcases (suffixMult_isSome_iff ch).mp (hc ch rfl) with rfl | rfl | rfl | rfl <;>
      · simp only [parseBudget, hsplit.1, hsplit.2]
        rw [if_neg (by simpa [List.isEmpty_iff] using hdne)]
        rw [if_pos trivial]
        simp only [hsplit2.1, hsplit2.2]
        rw [if_neg (by simpa [List.isEmpty_iff] using hfs.1)]
        simp [suffixMult, Except.isOk, Except.toBool]

/-- Helper: forward direction of the grammar characterization — a
successful parse exhibits the grammar decomposition. -/
theorem grammar_of_parseBudget_ok (s : Str) (h : (parseBudget s).isOk = true) :
    BudgetGrammar s := by
  have hsplit := List.takeWhile_append_dropWhile (p := Char.isDigit) (l := s)
  have hddig : ∀ a ∈ s.takeWhile Char.isDigit, a.isDigit = true :=
    fun a ha => List.mem_takeWhile_imp ha
  simp only [parseBudget] at h
  by_cases hde : (s.takeWhile Char.isDigit).isEmpty = true
  · rw [if_pos hde] at h
    simp [Except.isOk, Except.toBool] at h
  · rw [if_neg hde] at h
    have hdne : s.takeWhile Char.isDigit ≠ [] := by
      simpa [List.isEmpty_iff] using hde
    split at h
    · next heq =>
      refine ⟨s.takeWhile Char.isDigit, none, none, hdne, hddig, by simp, by simp, ?_⟩
      simp only [List.append_nil]
      have hs := hsplit
      rw [heq, List.append_nil] at hs
      exact hs.symm
    · next c0 r heq =>
      by_cases hdot : c0 = '.'
      · subst hdot
        rw [if_pos rfl] at h
        have hr := List.takeWhile_append_dropWhile (p := Char.isDigit) (l := r)
        have hrdig : ∀ a ∈ r.takeWhile Char.isDigit, a.isDigit = true :=
          fun a ha => List.mem_takeWhile_imp ha
        by_cases hfe : (r.takeWhile Char.isDigit).isEmpty = true
        · rw [if_pos hfe] at h
          simp [Except.isOk, Except.toBool] at h
        · rw [if_neg hfe] at h
          have hfne : r.takeWhile Char.isDigit ≠ [] := by
            simpa [List.isEmpty_iff] using hfe
          split at h
          · next heq2 =>
            refine ⟨s.takeWhile Char.isDigit, some (r.takeWhile Char.isDigit), none,
              hdne, hddig, ?_, by simp, ?_⟩
            · intro fs hfs
              cases hfs
              exact ⟨hfne, hrdig⟩
            · simp only [List.append_nil]
              have hs := hsplit
              rw [heq] at hs
              have hr2 := hr
              rw [heq2, List.append_nil] at hr2
              rw [hr2]
              exact hs.symm
          · next c2 tail heq2 =>
            by_cases htail : tail = []
            · subst htail
              rw [if_pos rfl] at h
              split at h
              · next m heq3 =>
                refine ⟨s.takeWhile Char.isDigit, some (r.takeWhile Char.isDigit),
                  some c2, hdne, hddig, ?_, ?_, ?_⟩
                · intro fs hfs
                  cases hfs
                  exact ⟨hfne, hrdig⟩
                · intro ch hch
                  cases hch
                  rw [heq3]
                  rfl
                · have hs := hsplit
                  rw [heq] at hs
                  have hr2 := hr
                  rw [heq2] at hr2
                  have hfinal :
                      s.takeWhile Char.isDigit ++ ('.' :: r.takeWhile Char.isDigit)
                        ++ [c2] = s := by
                    calc s.takeWhile Char.isDigit ++ ('.' :: r.takeWhile Char.isDigit)
                          ++ [c2]
                        = s.takeWhile Char.isDigit
                            ++ ('.' :: (r.takeWhile Char.isDigit ++ [c2])) := by simp
                      _ = s.takeWhile Char.isDigit ++ ('.' :: r) := by rw [hr2]
                      _ = s := hs
                  exact hfinal.symm
              · simp [Except.isOk, Except.toBool] at h
            · rw [if_neg htail] at h
              simp [Except.isOk, Except.toBool] at h
      · rw [if_neg hdot] at h
        by_cases hre : r = []
        · subst hre
          rw [if_pos rfl] at h
          split at h
          · next m heq3 =>
            refine ⟨s.takeWhile Char.isDigit, none, some c0, hdne, hddig, by simp, ?_, ?_⟩
            · intro ch hch
              cases hch
              rw [heq3]
              rfl
            · simp only [List.append_nil]
              have hs := hsplit
              rw [heq] at hs
              exact hs.symm
          · simp [Except.isOk, Except.toBool] at h
        · rw [if_neg hre] at h
          simp [Except.isOk, Except.toBool] at h

/-- C6.  `parseBudget` accepts exactly the strings of the grammar
`^\d+(\.\d+)?(k|m)?$` (case-insensitive), multiplying by 1000 for `k` and
1000000 for `m` and flooring; `parseBudget "50k" = 50000`,
`parseBudget "1.5m" = 1500000`, `parseBudget "123" = 123`, and any
non-matching input (e.g. "12kb") yields an error. -/
theorem parseBudget_grammar_and_examples :
    (∀ s : Str, (parseBudget s).isOk = true ↔ BudgetGrammar s)
    ∧ parseBudget ("50k".toList) = .ok 50000
    ∧ parseBudget ("1.5m".toList) = .ok 1500000
    ∧ parseBudget ("123".toList) = .ok 123
    ∧ (parseBudget ("12kb".toList)).isOk = false := by
  refine ⟨fun s => ⟨grammar_of_parseBudget_ok s, parseBudget_ok_of_grammar s⟩,
    ?_, ?_, ?_, ?_⟩
  · have hstep : parseBudget ("50k".toList) = .ok (budgetValue ("50".toList) [] 1000) := by
      simp +decide [parseBudget, suffixMult]
    rw [hstep]
    congr 1
    unfold budgetValue
    have h1 : natOfDigits ("50".toList) = 50 := by decide
    have h2 : natOfDigits ([] : Str) = 0 := by decide
    rw [h1, h2]
    norm_num
    rfl
  · have hstep : parseBudget ("1.5m".toList) =
        .ok (budgetValue ("1".toList) ("5".toList) 1000000) := by
      simp +decide [parseBudget, suffixMult]
    rw [hstep]
    congr 1
    unfold budgetValue
    have h1 : natOfDigits ("1".toList) = 1 := by decide
    have h2 : natOfDigits ("5".toList) = 5 := by decide
    have h3 : ("5".toList : Str).length = 1 := by decide
    rw [h1, h2, h3]
    norm_num
    rfl
  · have hstep : parseBudget ("123".toList) = .ok (budgetValue ("123".toList) [] 1) := by
      simp +decide [parseBudget, suffixMult]
    rw [hstep]
    congr 1
    unfold budgetValue
    have h1 : natOfDigits ("123".toList) = 123 := by decide
    have h2 : natOfDigits ([] : Str) = 0 := by decide
    rw [h1, h2]
    norm_num
    rfl
  · simp +decide [parseBudget, suffixMult, Except.isOk, Except.toBool]

/-- Witness for C6 at the accepted input "7k". -/
theorem parseBudget_grammar_and_examples_witness :
    (parseBudget ("7k".toList)).isOk = true :=
  (parseBudget_grammar_and_examples.1 ("7k".toList)).mpr
    ⟨['7'], none, some 'k', by decide, by decide, by simp,
     by intro ch h; cases h; decide, by decide⟩

/-- The fast path of `HybridRanker.rank` (`fast = true`): return the keyword
ranking, consulting neither the importance map nor the embedding stage. -/
def hybridRankFast (log : ℕ → ℚ) (importanceScores : List (Str × ℚ))
    (embeddingScoreMap : List (Str × ℝ)) (chunks : List Chunk) (query : Str) :
    List ScoredChunk :=
  keywordRank log chunks query

/-- Helper: inserting into the descending sort is a permutation. -/
theorem insertDesc_perm (c : ScoredChunk) (l : List ScoredChunk) :
    (insertDesc c l).Perm (c :: l) := by
  induction l with
  | nil => simp [insertDesc]
  | cons d ds ih =>
    simp only [insertDesc]
    split
    · exact List.Perm.refl _
    · exact (ih.cons d).trans (List.Perm.swap c d ds)

/-- Helper: the descending sort is a permutation of its input. -/
theorem sortByScoreDesc_perm (l : List ScoredChunk) : (sortByScoreDesc l).Perm l := by
  induction l with
  | nil => simp [sortByScoreDesc]
  | cons c cs ih =>
    exact (insertDesc_perm c (sortByScoreDesc cs)).trans (ih.cons c)

/-- Helper: inserting preserves descending sortedness. -/
theorem insertDesc_pairwise (c : ScoredChunk) (l : List ScoredChunk)
    (h : l.Pairwise (fun a b => b.score ≤ a.score)) :
    (insertDesc c l).Pairwise (fun a b => b.score ≤ a.score) := by
  induction l with
  | nil => simp [insertDesc]
  | cons d ds ih =>
    simp only [insertDesc]
    split
    · next hle =>
      refine List.Pairwise.cons ?_ h
      intro x hx
      rcases List.mem_cons.mp hx with rfl | hx2
      · exact hle
      · exact le_trans ((List.pairwise_cons.mp h).1 x hx2) hle
    · next hgt =>
      have hcd : c.score ≤ d.score := le_of_not_le hgt
      refine List.Pairwise.cons ?_ (ih (List.Pairwise.of_cons h))
      intro x hx
      rcases List.mem_cons.mp ((insertDesc_perm c ds).mem_iff.mp hx) with rfl | hx2
      · exact hcd
      · exact (List.pairwise_cons.mp h).1 x hx2

/-- Helper: the descending sort is sorted (scores weakly decreasing). -/
theorem sortByScoreDesc_pairwise (l : List ScoredChunk) :
    (sortByScoreDesc l).Pairwise (fun a b => b.score ≤ a.score) := by
  induction l with
  | nil => simp [sortByScoreDesc]
  | cons c cs ih => exact insertDesc_pairwise c _ ih

/-- Helper: stability of the insertion — for any fixed score value, the
subsequence of elements with that score is unchanged by inserting in front
of strictly smaller scores. -/
theorem insertDesc_filter_score (s : ℚ) (c : ScoredChunk) (l : List ScoredChunk)
    (h : l.Pairwise (fun a b => b.score ≤ a.score)) :
    (insertDesc c l).filter (fun x => x.score = s) =
      (c :: l).filter (fun x => x.score = s) := by
  induction l with
  | nil => rfl
  | cons d ds ih =>
    simp only [insertDesc]
    split
    · rfl
    · next hgt =>
      have hrec := ih (List.Pairwise.of_cons h)
      by_cases hc : c.score = s <;> by_cases hd : d.score = s
      · exact absurd (le_of_eq (hd.trans hc.symm)) hgt
      · simp [List.filter_cons, hc, hd, hrec]
      · simp [List.filter_cons, hc, hd, hrec]
      · simp [List.filter_cons, hc, hd, hrec]

/-- Helper: stability of the descending sort. -/
theorem sortByScoreDesc_filter_score (s : ℚ) (l : List ScoredChunk) :
    (sortByScoreDesc l).filter (fun x => x.score = s) =
      l.filter (fun x => x.score = s) := by
  induction l with
  | nil => rfl
  | cons c cs ih =>
    calc (insertDesc c (sortByScoreDesc cs)).filter (fun x => x.score = s)
        = (c :: sortByScoreDesc cs).filter (fun x => x.score = s) :=
          insertDesc_filter_score s c _ (sortByScoreDesc_pairwise cs)
      _ = (c :: cs).filter (fun x => x.score = s) := by
          by_cases hc : c.score = s <;> simp [List.filter_cons, hc, ih]

/-- C9.  With `fast = true` the ranking is a deterministic pure function of
(chunks, query): the fast path ignores the importance map and the embedding
stage entirely; its output is a permutation of the per-chunk keyword-scored
list (each chunk carrying the score computed from that chunk and the query
alone), is sorted by weakly descending score, and breaks ties by insertion
order (for every score value, the subsequence of chunks at that score
equals their order in the input list). -/
theorem keywordRank_deterministic_sorted_stable (log : ℕ → ℚ)
    (imp1 imp2 : List (Str × ℚ)) (emb1 emb2 : List (Str × ℝ))
    (chunks : List Chunk) (query : Str) :
    hybridRankFast log imp1 emb1 chunks query = hybridRankFast log imp2 emb2 chunks query
    ∧ hybridRankFast log imp1 emb1 chunks query = keywordRank log chunks query
    ∧ (keywordRank log chunks query).Perm
        (chunks.map (fun c => { c with score :=
          (if (tokenize query true true).isEmpty then 0
           else scoreChunk log c (tokenize query true true) (extractImportantTerms query)) }))
    ∧ (keywordRank log chunks query).Pairwise (fun a b => b.score ≤ a.score)
    ∧ ∀ s : ℚ, (keywordRank log chunks query).filter (fun sc => sc.score = s) =
        (chunks.map (fun c => { c with score :=
          (if (tokenize query true true).isEmpty then 0
           else scoreChunk log c (tokenize query true true) (extractImportantTerms query)) })).filter
          (fun sc => sc.score = s) := by
  refine ⟨rfl, rfl, ?_, ?_, ?_⟩
  · unfold keywordRank
    by_cases hq : (tokenize query true true).isEmpty
    · simp only [hq, if_true]
      exact List.Perm.refl _
    · simp only [hq, if_false]
      exact (sortByScoreDesc_perm _)
  · unfold keywordRank
    by_cases hq : (tokenize query true true).isEmpty
    · simp only [hq, if_true]
      exact List.pairwise_map.mpr (List.pairwise_of_forall (fun a b => le_refl 0))
    · simp only [hq, if_false]
      exact sortByScoreDesc_pairwise _
  · intro s
    unfold keywordRank
    by_cases hq : (tokenize query true true).isEmpty
    · simp only [hq, if_true]
    · simp only [hq, if_false]
      exact sortByScoreDesc_filter_score s _

/-- Helper: the keyword score of `cA` ("zz" content, no name) for the
query token "login" is 0. -/
theorem scoreChunk_cA_login : scoreChunk (fun _ => 0) cA ["login".toList] [] = 0 := by
  have hct : tokenize (cA.content) false true = ["zz".toList] := by decide
  have hpt : tokenize (cA.relativePath) false true = ["ts".toList] := by decide
  simp only [scoreChunk, cA, hct, hpt]
  simp +decide [tokenContribution, boostMultiplier, substrMatch, pathContains,
    List.filter, min_def, max_def]

/-- Helper: the keyword score of `cB` (named `login`) for the query token
"login" is 23 (3 from the name substring tally, 20 from the exact name
match). -/
theorem scoreChunk_cB_login : scoreChunk (fun _ => 0) cB ["login".toList] [] = 23 := by
  have hct : tokenize (cB.content) false true = ["zz".toList] := by decide
  have hpt : tokenize (cB.relativePath) false true = ["ts".toList] := by decide
  have hnt : tokenize ("login".toList) false true = ["login".toList] := by decide
  simp only [scoreChunk, cB, hnt, hct, hpt]
  simp +decide [tokenContribution, boostMultiplier, substrMatch, pathContains,
    List.filter, min_def, max_def]
  norm_num

/-- Helper: the keyword ranking of `[cA, cB]` for "login" sorts `cB` (score
23) before `cA` (score 0). -/
theorem keywordRank_login_eval :
    keywordRank (fun _ => 0) [cA, cB] ("login".toList) =
      [{ cB with score := 23 }, { cA with score := 0 }] := by
  have hq : tokenize ("login".toList) true true = ["login".toList] := by decide
  have himp : extractImportantTerms ("login".toList) = [] := by
    simp +decide [extractImportantTerms, dotTerms, quotedTerms, isWordChar]
  simp only [keywordRank, hq, himp]
  rw [if_neg (by decide)]
  simp only [List.map_cons, List.map_nil, scoreChunk_cA_login, scoreChunk_cB_login]
  simp only [sortByScoreDesc, insertDesc]
  rw [if_neg (by norm_num)]

/-- Helper: normalizing the (sorted) keyword scores `[23, 0]` gives `[1, 0]`. -/
theorem normalizeScores_23_0 : normalizeScores [23, 0] = [1, 0] := by
  unfold normalizeScores
  norm_num [min_def, max_def]

/-- C2.  In hybrid mode the normalized keyword score fused into a chunk is
*not* that chunk's own: `normalizedKeyword` holds the keyword scores in
score-descending (sorted) order, but is indexed by the chunk's position in
the original list.  For `[cA, cB]` and query "login", `cA` (own keyword
score 0) is fused with normalized keyword 1 and gets final score 1/2, while
`cB` (own keyword score 23) is fused with normalized keyword 0 and gets
1/10 — the opposite of the claimed per-chunk fusion `0.4·keyword +
0.4·embedding + 0.2·importance`. -/
theorem hybridScores_misattributes_keyword :
    (hybridScores (fun _ => 0) [] [] [cA, cB] ("login".toList)).map Prod.snd
      = [(1/2 : ℝ), 1/10]
    ∧ (keywordRank (fun _ => 0) [cA, cB] ("login".toList)).map (fun sc => sc.score)
      = [23, 0] := by
  constructor
  · unfold hybridScores
    rw [keywordRank_login_eval]
    simp only [List.map_cons, List.map_nil]
    rw [normalizeScores_23_0]
    simp +decide [List.enum, getImportance, cA, cB, List.lookup, List.getD]
    norm_num
  · rw [keywordRank_login_eval]
    simp

/-- Helper: full hybrid fusion of `[cA, cB]` for "login" with no embedding
scores and no importance map. -/
theorem hybridScores_login_eval :
    hybridScores (fun _ => 0) [] [] [cA, cB] ("login".toList)
      = [(cA, (1/2 : ℝ)), (cB, (1/10 : ℝ))] := by
  unfold hybridScores
  rw [keywordRank_login_eval]
  simp only [List.map_cons, List.map_nil]
  rw [normalizeScores_23_0]
  simp +decide [List.enum, getImportance, cA, cB, List.lookup, List.getD]
  norm_num

/-- Helper: a fold accumulating nonnegative per-token contributions stays
nonnegative. -/
theorem foldl_add_nonneg (f : Str → ℚ) (l : List Str) :
    ∀ acc : ℚ, 0 ≤ acc → (∀ t ∈ l, 0 ≤ f t) →
      0 ≤ l.foldl (fun a t => a + f t) acc := by
  induction l with
  | nil => intro acc hacc _; simpa
  | cons t ts ih =>
    intro acc hacc hf
    simp only [List.foldl_cons]
    exact ih (acc + f t) (add_nonneg hacc (hf t (List.mem_cons_self t ts)))
      (fun u hu => hf u (List.mem_cons_of_mem t hu))

/-- Helper: the boost multiplier is nonnegative. -/
theorem boostMultiplier_nonneg (imp : List Str) (qt : Str) :
    0 ≤ boostMultiplier imp qt := by
  unfold boostMultiplier
  split_ifs <;> norm_num

/-- Helper: with `Math.log` nonnegative on positive integers, every
per-token contribution is nonnegative. -/
theorem tokenContribution_nonneg (log : ℕ → ℚ)
    (hlog : ∀ n : ℕ, 0 < n → 0 ≤ log n)
    (cT pT nT : List Str) (d : ℚ) (hd : 0 ≤ d) (imp : List Str) (qt : Str) :
    0 ≤ tokenContribution log cT pT nT d imp qt := by
  unfold tokenContribution
  have hb := boostMultiplier_nonneg imp qt
  have hcs : (0:ℚ) ≤ (if 0 < (cT.filter (fun t => substrMatch t qt)).length
      then (1 + log (cT.filter (fun t => substrMatch t qt)).length) * (1 + d)
      else 0) := by
    split_ifs with hcm
    · have := hlog _ hcm
      nlinarith
    · norm_num
  dsimp only
  refine add_nonneg (add_nonneg (add_nonneg (add_nonneg (add_nonneg ?_ ?_) ?_) ?_) ?_) ?_
  · exact mul_nonneg (mul_nonneg hcs (by norm_num)) hb
  · exact mul_nonneg (mul_nonneg (Nat.cast_nonneg _) (by norm_num)) hb
  · exact mul_nonneg (mul_nonneg (Nat.cast_nonneg _) (by norm_num)) hb
  · split_ifs
    · exact mul_nonneg (by norm_num) hb
    · norm_num
  · split_ifs
    · exact mul_nonneg (by norm_num) hb
    · norm_num
  · split_ifs
    · exact mul_nonneg (by norm_num) hb
    · norm_num

/-- Helper: every keyword chunk score is nonnegative. -/
theorem scoreChunk_nonneg (log : ℕ → ℚ) (hlog : ∀ n : ℕ, 0 < n → 0 ≤ log n)
    (c : Chunk) (qts imps : List Str) : 0 ≤ scoreChunk log c qts imps := by
  unfold scoreChunk
  have hd : (0:ℚ) ≤ min 1 (200 / (max (tokenize c.content false true).length 1 : ℚ)) :=
    le_min (by norm_num) (by positivity)
  have hbase : (0:ℚ) ≤ qts.foldl
      (fun acc qt => acc + tokenContribution log (tokenize c.content false true)
        (tokenize c.relativePath false true)
        (match c.name with | some n => tokenize n false true | none => [])
        (min 1 (200 / (max (tokenize c.content false true).length 1 : ℚ))) imps qt) 0 :=
    foldl_add_nonneg _ qts 0 (le_refl 0)
      (fun t _ => tokenContribution_nonneg log hlog _ _ _ _ hd imps t)
  have step : ∀ (P : Prop) (inst : Decidable P) (x k : ℚ), 0 ≤ x → 0 ≤ k →
      0 ≤ (if P then x * k else x) := by
    intro P inst x k hx hk
    split_ifs
    · exact mul_nonneg hx hk
    · exact hx
  exact step _ _ _ _ (step _ _ _ _ (step _ _ _ _ (step _ _ _ _ hbase (by norm_num))
    (by norm_num)) (by norm_num)) (by norm_num)

/-- Helper: a fold of `min` is a lower bound for the seed and the list. -/
theorem foldl_min_le (l : List ℚ) : ∀ a : ℚ,
    l.foldl min a ≤ a ∧ ∀ x ∈ l, l.foldl min a ≤ x := by
  induction l with
  | nil => intro a; simp
  | cons y ys ih =>
    intro a
    simp only [List.foldl_cons]
    refine ⟨le_trans (ih (min a y)).1 (min_le_left a y), ?_⟩
    intro x hx
    rcases List.mem_cons.mp hx with rfl | hx2
    · exact le_trans (ih (min a x)).1 (min_le_right a x)
    · exact (ih (min a y)).2 x hx2

/-- Helper: a fold of `max` is an upper bound for the seed and the list. -/
theorem le_foldl_max (l : List ℚ) : ∀ a : ℚ,
    a ≤ l.foldl max a ∧ ∀ x ∈ l, x ≤ l.foldl max a := by
  induction l with
  | nil => intro a; simp
  | cons y ys ih =>
    intro a
    simp only [List.foldl_cons]
    refine ⟨le_trans (le_max_left a y) (ih (max a y)).1, ?_⟩
    intro x hx
    rcases List.mem_cons.mp hx with rfl | hx2
    · exact le_trans (le_max_right a x) (ih (max a x)).1
    · exact (ih (max a y)).2 x hx2

/-- Helper: every normalized score is nonnegative. -/
theorem normalizeScores_nonneg (l : List ℚ) : ∀ x ∈ normalizeScores l, 0 ≤ x := by
  cases l with
  | nil => simp [normalizeScores]
  | cons s0 rest =>
    intro x hx
    unfold normalizeScores at hx
    dsimp only at hx
    by_cases hr : rest.foldl max s0 - rest.foldl min s0 = 0
    · rw [if_pos hr] at hx
      obtain ⟨y, _, rfl⟩ := List.mem_map.mp hx
      norm_num
    · rw [if_neg hr] at hx
      obtain ⟨y, hy, rfl⟩ := List.mem_map.mp hx
      have hmn : rest.foldl min s0 ≤ y := by
        rcases List.mem_cons.mp hy with rfl | hy2
        · exact (foldl_min_le rest y).1
        · exact (foldl_min_le rest s0).2 y hy2
      have hmx : y ≤ rest.foldl max s0 := by
        rcases List.mem_cons.mp hy with rfl | hy2
        · exact (le_foldl_max rest y).1
        · exact (le_foldl_max rest s0).2 y hy2
      have hrange : 0 < rest.foldl max s0 - rest.foldl min s0 := by
        have hle : rest.foldl min s0 ≤ rest.foldl max s0 :=
          le_trans (foldl_min_le rest s0).1 (le_foldl_max rest s0).1
        rcases lt_or_eq_of_le hle with hlt | heq
        · linarith
        · exact absurd (by linarith) hr
      exact div_nonneg (by linarith) (le_of_lt hrange)

/-- Helper: a `getD` read of a normalized score list with default 0 is
nonnegative. -/
theorem normalizeScores_getD_nonneg (l : List ℚ) (i : ℕ) :
    0 ≤ (normalizeScores l).getD i 0 := by
  by_cases h : i < (normalizeScores l).length
  · rw [List.getD_eq_getElem _ _ h]
    exact normalizeScores_nonneg l _ (List.getElem_mem h)
  · rw [List.getD_eq_default _ _ (le_of_not_lt h)]

/-- Helper: a lookup with nonnegative values and nonnegative default is
nonnegative (rational version). -/
theorem lookup_getD_nonneg_rat (m : List (Str × ℚ)) (k : Str) (d : ℚ) (hd : 0 ≤ d)
    (hm : ∀ pr ∈ m, 0 ≤ pr.2) : 0 ≤ (List.lookup k m).getD d := by
  induction m with
  | nil => simpa [List.lookup]
  | cons p ps ih =>
    simp only [List.lookup]
    split
    · next heq => exact hm p (List.mem_cons_self p ps)
    · exact ih (fun pr hpr => hm pr (List.mem_cons_of_mem p hpr))

/-- Helper: a lookup with nonnegative values and nonnegative default is
nonnegative (real version). -/
theorem lookup_getD_nonneg_real (m : List (Str × ℝ)) (k : Str) (d : ℝ) (hd : 0 ≤ d)
    (hm : ∀ pr ∈ m, 0 ≤ pr.2) : 0 ≤ (List.lookup k m).getD d := by
  induction m with
  | nil => simpa [List.lookup]
  | cons p ps ih =>
    simp only [List.lookup]
    split
    · next heq => exact hm p (List.mem_cons_self p ps)
    · exact ih (fun pr hpr => hm pr (List.mem_cons_of_mem p hpr))

/-- Helper: the importance component is nonnegative when the importance map
holds nonnegative values. -/
theorem getImportance_nonneg (m : List (Str × ℚ)) (c : Chunk)
    (hm : ∀ pr ∈ m, 0 ≤ pr.2) : 0 ≤ getImportance m c := by
  unfold getImportance
  have := lookup_getD_nonneg_rat m c.filePath (1/2) (by norm_num) hm
  split_ifs
  · nlinarith
  · exact this

/-- C10 (amended).  Every score the ranker produces is nonnegative in fast
(keyword-only) mode, given that `Math.log` is nonnegative on positive
integers; and every hybrid score is nonnegative *provided* all embedding
similarities and importance values are nonnegative (as with the zero-vector
fallback).  The unconditional claim is false: a negative cosine similarity,
which the embedding provider can produce, makes the fused score negative
(see the counterexample). -/
theorem ranker_scores_nonneg :
    (∀ log : ℕ → ℚ, (∀ n : ℕ, 0 < n → 0 ≤ log n) →
      ∀ (chunks : List Chunk) (query : Str) (sc : ScoredChunk),
        sc ∈ keywordRank log chunks query → 0 ≤ sc.score)
    ∧ (∀ log : ℕ → ℚ, (∀ n : ℕ, 0 < n → 0 ≤ log n) →
      ∀ imp : List (Str × ℚ), (∀ pr ∈ imp, 0 ≤ pr.2) →
      ∀ emb : List (Str × ℝ), (∀ pr ∈ emb, 0 ≤ pr.2) →
      ∀ (chunks : List Chunk) (query : Str) (p : Chunk × ℝ),
        p ∈ hybridScores log imp emb chunks query → 0 ≤ p.2) := by
  constructor
  · intro log hlog chunks query sc hsc
    unfold keywordRank at hsc
    by_cases hq : (tokenize query true true).isEmpty
    · rw [if_pos hq] at hsc
      obtain ⟨c, _, rfl⟩ := List.mem_map.mp hsc
      exact le_refl 0
    · rw [if_neg hq] at hsc
      have hmem := (sortByScoreDesc_perm _).mem_iff.mp hsc
      obtain ⟨c, _, rfl⟩ := List.mem_map.mp hmem
      exact scoreChunk_nonneg log hlog c _ _
  · intro log hlog imp himp emb hemb chunks query p hp
    unfold hybridScores at hp
    obtain ⟨q, _, rfl⟩ := List.mem_map.mp hp
    dsimp only
    have h1 := normalizeScores_getD_nonneg
      ((keywordRank log chunks query).map (fun c => c.score)) q.1
    have h2 := lookup_getD_nonneg_real emb q.2.id 0 (le_refl 0) hemb
    have h3 := getImportance_nonneg imp q.2 himp
    have hc1 : (0:ℝ) ≤ ((normalizeScores
        ((keywordRank log chunks query).map (fun c => c.score))).getD q.1 0 : ℚ) := by
      exact_mod_cast h1
    have hc3 : (0:ℝ) ≤ (getImportance imp q.2 : ℚ) := by exact_mod_cast h3
    refine add_nonneg (add_nonneg
      (mul_nonneg hc1 (by norm_num))
      (mul_nonneg h2 (by norm_num)))
      (mul_nonneg hc3 (by norm_num))

/-- Witness for C10 (amended): the concrete keyword score 23 of `cB` and the
concrete hybrid score 1/2 of `cA` are nonnegative, obtained by applying the
theorem at the evaluated rankings. -/
theorem ranker_scores_nonneg_witness :
    (0:ℚ) ≤ ({ cB with score := 23 } : ScoredChunk).score
    ∧ (0:ℝ) ≤ ((cA, (1/2 : ℝ)) : Chunk × ℝ).2 :=
  ⟨ranker_scores_nonneg.1 (fun _ => 0) (fun _ _ => le_refl 0) [cA, cB] ("login".toList)
      { cB with score := 23 }
      (by rw [keywordRank_login_eval]; exact List.mem_cons_self _ _),
   ranker_scores_nonneg.2 (fun _ => 0) (fun _ _ => le_refl 0) [] (by simp) [] (by simp)
      [cA, cB] ("login".toList) (cA, (1/2 : ℝ))
      (by rw [hybridScores_login_eval]; exact List.mem_cons_self _ _)⟩

/-- C10 counterexample.  The embedding provider can return vectors with
negative cosine similarity (cosine of [1] and [-1] is -1), and a -1
embedding score drives the hybrid fused score of a chunk below zero:
0.4·0.5 + 0.4·(-1) + 0.2·0.5 = -0.1. -/
theorem hybrid_negative_score_cex :
    cosineSimilarity [(1:ℝ)] [(-1:ℝ)] = .ok (-1)
    ∧ (hybridScores (fun _ => 0) [] [(cA.id, (-1:ℝ))] [cA] ("login".toList)).map Prod.snd
        = [-(1/10 : ℝ)]
    ∧ (-(1/10 : ℝ)) < 0 := by
  refine ⟨?_, ?_, by norm_num⟩
  · unfold cosineSimilarity
    rw [if_neg (by norm_num)]
    simp [Real.sqrt_one]
  · have hq : tokenize ("login".toList) true true = ["login".toList] := by decide
    have himp : extractImportantTerms ("login".toList) = [] := by
      simp +decide [extractImportantTerms, dotTerms, quotedTerms, isWordChar]
    have hrank : keywordRank (fun _ => 0) [cA] ("login".toList)
        = [{ cA with score := 0 }] := by
      simp only [keywordRank, hq, himp]
      rw [if_neg (by decide)]
      simp only [List.map_cons, List.map_nil, scoreChunk_cA_login]
      rfl
    unfold hybridScores
    rw [hrank]
    simp only [List.map_cons, List.map_nil]
    have hnorm : normalizeScores [0] = [1/2] := by
      unfold normalizeScores
      norm_num
    rw [hnorm]
    simp +decide [List.enum, getImportance, cA, List.lookup, List.getD]
    norm_num

/-- Helper: a file splits into at least one line (`"".split("\n")` is
`[""]`). -/
theorem splitLines_ne_nil (content : Str) : splitLines content ≠ [] := by
  unfold splitLines List.splitOn
  exact List.splitOnP_ne_nil _ content

/-- Helper: every chunk the chunker emits has an id of the form
`hash(...)` — every constructor of chunks applies `hash` to its key. -/
theorem codeChunk_id_is_hash (hash : Str → Str) (ct : Str → ℕ)
    (matchLine : Str → Option (Str × Option Str)) (hasPatterns : Bool)
    (content fp rp lang : Str) :
    ∀ c ∈ codeChunk hash ct matchLine hasPatterns content fp rp lang,
      ∃ s, c.id = hash s := by
  have hsize : ∀ c ∈ chunkBySize hash ct content fp rp lang, ∃ s, c.id = hash s := by
    intro c hc
    unfold chunkBySize at hc
    dsimp only at hc
    split at hc
    · rcases List.mem_singleton.mp hc with rfl
      exact ⟨_, rfl⟩
    · obtain ⟨j, _, rfl⟩ := List.mem_map.mp hc
      exact ⟨_, rfl⟩
  have hsplit : ∀ (lines : List Str) (off : ℕ) (t : Str) (n : Option Str)
      (c : Chunk), c ∈ splitLargeChunk hash ct lines off fp rp lang t n →
      ∃ s, c.id = hash s := by
    intro lines off t n c hc
    unfold splitLargeChunk at hc
    obtain ⟨j, _, rfl⟩ := List.mem_map.mp hc
    exact ⟨_, rfl⟩
  have hloop : ∀ (lines : List Str) (multi : Bool) (bs : List Boundary) (c : Chunk),
      c ∈ chunkLoop hash ct lines fp rp lang multi bs → ∃ s, c.id = hash s := by
    intro lines multi bs
    induction bs with
    | nil => intro c hc; simp [chunkLoop] at hc
    | cons b bs ih =>
      intro c hc
      unfold chunkLoop at hc
      dsimp only at hc
      repeat' split at hc
      all_goals
        first
          | exact ih c hc
          | (rcases List.mem_append.mp hc with hc1 | hc2
             · exact hsplit _ _ _ _ c hc1
             · exact ih c hc2)
          | (rcases List.mem_cons.mp hc with rfl | hc2
             · exact ⟨_, rfl⟩
             · exact ih c hc2)
  intro c hc
  unfold codeChunk at hc
  dsimp only at hc
  repeat' split at hc
  all_goals
    first
      | exact hsize c hc
      | exact hloop _ _ _ c hc
      | (rcases List.mem_cons.mp hc with rfl | hc2
         · exact ⟨_, rfl⟩
         · exact hloop _ _ _ c hc2)

/-- C3 counterexample.  A cache round-trip does not preserve chunk ids: the
chunker id is `hash(filePath + ":" + 0-indexed start)` (a digest, here the
stand-in "aaaa") while the cache-hot load rebuilds the id as the *unhashed*
string `filePath + ":" + 1-indexed start` — for a one-chunk file "hello"
under path "p", the reloaded id is "p:1" while the chunker id is the digest,
and the two always differ.  Content is preserved. -/
theorem cacheReload_id_cex :
    (loadCachedChunks (fun _ => 0)
        { path := "p".toList, relativePath := "p".toList, content := "hello".toList,
          language := "text".toList, mtime := 0 }
        (setChunksRows (codeChunk (fun _ => "aaaa".toList) (fun _ => 0) (fun _ => none)
          false ("hello".toList) ("p".toList) ("p".toList) ("text".toList)))).map
        (fun c => c.content)
      = (codeChunk (fun _ => "aaaa".toList) (fun _ => 0) (fun _ => none) false
          ("hello".toList) ("p".toList) ("p".toList) ("text".toList)).map
          (fun c => c.content)
    ∧ (loadCachedChunks (fun _ => 0)
        { path := "p".toList, relativePath := "p".toList, content := "hello".toList,
          language := "text".toList, mtime := 0 }
        (setChunksRows (codeChunk (fun _ => "aaaa".toList) (fun _ => 0) (fun _ => none)
          false ("hello".toList) ("p".toList) ("p".toList) ("text".toList)))).map
        (fun c => c.id)
      = ["p:1".toList]
    ∧ (codeChunk (fun _ => "aaaa".toList) (fun _ => 0) (fun _ => none) false
        ("hello".toList) ("p".toList) ("p".toList) ("text".toList)).map (fun c => c.id)
      = ["aaaa".toList]
    ∧ ("p:1".toList : Str) ≠ "aaaa".toList := by
  refine ⟨by decide, by decide, by decide, by decide⟩

/-- C3 (amended).  For a file whose mtime has not decreased, the cached
build path is taken (`hasCachedChunks` holds) and reloading the rows the
cold run stored reproduces each chunk's content, line range and kind
verbatim — but *not* its id: the cache-hot id is the raw string
`path:startLine` (1-indexed, unhashed), while the chunker id is a SHA-256
hex digest (here: any hash whose output never contains a colon), so every
hot id differs from every cold id. -/
theorem cacheReload_content_preserved (hash : Str → Str) (ct ct2 : Str → ℕ)
    (matchLine : Str → Option (Str × Option Str)) (hasPatterns : Bool)
    (file : SourceFile) (hnc : ∀ s, ':' ∉ hash s) :
    (loadCachedChunks ct2 file (setChunksRows (codeChunk hash ct matchLine hasPatterns
        file.content file.path file.relativePath file.language))).map
        (fun c => (c.content, c.startLine, c.endLine, c.type))
      = (codeChunk hash ct matchLine hasPatterns
          file.content file.path file.relativePath file.language).map
          (fun c => (c.content, c.startLine, c.endLine, c.type))
    ∧ (∀ h1 ∈ loadCachedChunks ct2 file (setChunksRows (codeChunk hash ct matchLine
          hasPatterns file.content file.path file.relativePath file.language)),
       ∀ c ∈ codeChunk hash ct matchLine hasPatterns
          file.content file.path file.relativePath file.language, h1.id ≠ c.id)
    ∧ (∀ m1 m2 : ℚ, m2 ≤ m1 →
        codeChunk hash ct matchLine hasPatterns
          file.content file.path file.relativePath file.language ≠ [] →
        hasCachedChunks m1 (setChunksRows (codeChunk hash ct matchLine hasPatterns
          file.content file.path file.relativePath file.language)) m2 = true) := by
  refine ⟨?_, ?_, ?_⟩
  · unfold loadCachedChunks setChunksRows loadCachedChunk
    rw [List.map_map, List.map_map]
    rfl
  · intro h1 hh1 c hc
    unfold loadCachedChunks at hh1
    obtain ⟨r, _, rfl⟩ := List.mem_map.mp hh1
    obtain ⟨s, hs⟩ := codeChunk_id_is_hash hash ct matchLine hasPatterns
      file.content file.path file.relativePath file.language c hc
    intro heq
    have hcolon : ':' ∈ (loadCachedChunk ct2 file r).id := by
      unfold loadCachedChunk
      exact List.mem_append.mpr (Or.inr (List.mem_cons_self _ _))
    rw [heq, hs] at hcolon
    exact hnc s hcolon
  · intro m1 m2 hm hne
    unfold hasCachedChunks setChunksRows
    simp only [List.length_map, decide_eq_true_eq]
    simp [hm, List.length_pos.mpr hne]

/-- Witness for C3 (amended) at the one-chunk file "hello" (path "p") and
the colon-free stand-in digest "aaaa". -/
theorem cacheReload_content_preserved_witness :
    (loadCachedChunks (fun _ => 0)
        { path := "p".toList, relativePath := "p".toList, content := "hello".toList,
          language := "text".toList, mtime := 0 }
        (setChunksRows (codeChunk (fun _ => "aaaa".toList) (fun _ => 0) (fun _ => none)
          false ("hello".toList) ("p".toList) ("p".toList) ("text".toList)))).map
        (fun c => (c.content, c.startLine, c.endLine, c.type))
      = (codeChunk (fun _ => "aaaa".toList) (fun _ => 0) (fun _ => none) false
          ("hello".toList) ("p".toList) ("p".toList) ("text".toList)).map
          (fun c => (c.content, c.startLine, c.endLine, c.type)) :=
  (cacheReload_content_preserved (fun _ => "aaaa".toList) (fun _ => 0) (fun _ => 0)
    (fun _ => none) false
    { path := "p".toList, relativePath := "p".toList, content := "hello".toList,
      language := "text".toList, mtime := 0 }
    (by intro s; show ':' ∉ "aaaa".toList; decide)).1

/-- Helper: the length of a line slice. -/
theorem sliceLines_length (lines : List Str) (a b : ℕ) :
    (sliceLines lines a b).length = min (b - a) (lines.length - a) := by
  unfold sliceLines
  simp [List.length_take, List.length_drop]

/-- Helper: line-range facts for `splitLargeChunk` — every piece starts
after the offset, has a nonempty range, ends within the sliced lines, and
consecutive pieces are disjoint and increasing. -/
theorem splitLargeChunk_facts (hash : Str → Str) (ct : Str → ℕ) (lines : List Str)
    (off : ℕ) (fp rp lang t : Str) (n : Option Str) :
    (∀ c ∈ splitLargeChunk hash ct lines off fp rp lang t n,
      off + 1 ≤ c.startLine ∧ c.startLine ≤ c.endLine ∧ c.endLine ≤ off + lines.length)
    ∧ (splitLargeChunk hash ct lines off fp rp lang t n).Pairwise
        (fun a b => a.endLine < b.startLine) := by
  constructor
  · intro c hc
    unfold splitLargeChunk at hc
    obtain ⟨j, hj, rfl⟩ := List.mem_map.mp hc
    rw [List.mem_range] at hj
    have hj2 : (j + 1) * MAX_CHUNK_LINES ≤ lines.length + (MAX_CHUNK_LINES - 1) :=
      (Nat.le_div_iff_mul_le (by norm_num [MAX_CHUNK_LINES])).mp (Nat.succ_le_of_lt hj)
    dsimp only
    unfold MAX_CHUNK_LINES at hj2 ⊢
    omega
  · unfold splitLargeChunk
    refine List.pairwise_map.mpr ((List.pairwise_lt_range _).imp ?_)
    intro i j hij
    dsimp only
    unfold MAX_CHUNK_LINES
    omega

/-- Helper: line-range facts for `chunkBySize` — chunks are 1-indexed,
nonempty, within the file, and pairwise disjoint increasing. -/
theorem chunkBySize_facts (hash : Str → Str) (ct : Str → ℕ)
    (content fp rp lang : Str) :
    (∀ c ∈ chunkBySize hash ct content fp rp lang,
      1 ≤ c.startLine ∧ c.startLine ≤ c.endLine ∧
        c.endLine ≤ (splitLines content).length)
    ∧ (chunkBySize hash ct content fp rp lang).Pairwise
        (fun a b => a.endLine < b.startLine) := by
  have hL : 0 < (splitLines content).length :=
    List.length_pos.mpr (splitLines_ne_nil content)
  constructor
  · intro c hc
    unfold chunkBySize at hc
    dsimp only at hc
    split at hc
    · rcases List.mem_singleton.mp hc with rfl
      exact ⟨le_refl 1, hL, le_refl _⟩
    · obtain ⟨j, hj, rfl⟩ := List.mem_map.mp hc
      rw [List.mem_range] at hj
      have hj2 : (j + 1) * MAX_CHUNK_LINES ≤
          (splitLines content).length + (MAX_CHUNK_LINES - 1) :=
        (Nat.le_div_iff_mul_le (by norm_num [MAX_CHUNK_LINES])).mp (Nat.succ_le_of_lt hj)
      dsimp only
      unfold MAX_CHUNK_LINES at hj2 ⊢
      omega
  · unfold chunkBySize
    dsimp only
    split
    · simp
    · refine List.pairwise_map.mpr ((List.pairwise_lt_range _).imp ?_)
      intro i j hij
      dsimp only
      unfold MAX_CHUNK_LINES
      omega

/-- Helper: boundaries found from line `i` onward carry strictly increasing
line indices in `[i, i + |lines|)`. -/
theorem findBoundariesAux_facts (matchLine : Str → Option (Str × Option Str)) :
    ∀ (ls : List Str) (i : ℕ),
      (∀ b ∈ findBoundariesAux matchLine ls i, i ≤ b.line ∧ b.line < i + ls.length)
      ∧ (findBoundariesAux matchLine ls i).Pairwise (fun x y => x.line < y.line) := by
  intro ls
  induction ls with
  | nil =>
    intro i
    refine ⟨fun b hb => ?_, by simp [findBoundariesAux]⟩
    simp [findBoundariesAux] at hb
  | cons l ls ih =>
    intro i
    unfold findBoundariesAux
    cases hml : matchLine l with
    | none =>
      refine ⟨fun b hb => ?_, (ih (i + 1)).2⟩
      have := (ih (i + 1)).1 b hb
      simp only [List.length_cons]
      omega
    | some p =>
      obtain ⟨t, n⟩ := p
      constructor
      · intro b hb
        rcases List.mem_cons.mp hb with rfl | hb2
        · simp only [List.length_cons]
          omega
        · have := (ih (i + 1)).1 b hb2
          simp only [List.length_cons]
          omega
      · refine List.Pairwise.cons ?_ (ih (i + 1)).2
        intro y hy
        have := (ih (i + 1)).1 y hy
        simp only
        omega

/-- Helper: line-range facts for the boundary loop — every produced chunk
starts after the first boundary, has a nonempty 1-indexed range ending
within the file, and the produced list is pairwise disjoint increasing. -/
theorem chunkLoop_facts (hash : Str → Str) (ct : Str → ℕ) (lines : List Str)
    (fp rp lang : Str) (multi : Bool) :
    ∀ bs : List Boundary,
      bs.Pairwise (fun x y => x.line < y.line) →
      (∀ b ∈ bs, b.line < lines.length) →
      (∀ c ∈ chunkLoop hash ct lines fp rp lang multi bs,
          (∀ b0, bs.head? = some b0 → b0.line + 1 ≤ c.startLine)
          ∧ c.startLine ≤ c.endLine ∧ c.endLine ≤ lines.length)
      ∧ (chunkLoop hash ct lines fp rp lang multi bs).Pairwise
          (fun a b => a.endLine < b.startLine) := by
  intro bs
  induction bs with
  | nil =>
    intro _ _
    exact ⟨fun c hc => absurd hc (by simp [chunkLoop]), by simp [chunkLoop]⟩
  | cons b bs ih =>
    intro hsort hlt
    have hblt : b.line < lines.length := hlt b (List.mem_cons_self b bs)
    have ihr := ih (List.Pairwise.of_cons hsort)
      (fun x hx => hlt x (List.mem_cons_of_mem b hx))
    cases bs with
    | nil =>
      have hrest : chunkLoop hash ct lines fp rp lang multi [] = [] := by
        simp [chunkLoop]
      have hslice : (sliceLines lines b.line (lines.length - 1 + 1)).length
          = lines.length - b.line := by
        rw [sliceLines_length]; omega
      unfold chunkLoop
      dsimp only
      rw [hrest]
      split
      · exact ⟨fun c hc => absurd hc (List.not_mem_nil c), List.Pairwise.nil⟩
      · split
        · next hbig =>
          rw [List.append_nil]
          have hfacts := splitLargeChunk_facts hash ct
            (sliceLines lines b.line (lines.length - 1 + 1)) b.line fp rp lang
            b.type b.name
          refine ⟨fun c hc => ?_, hfacts.2⟩
          have := hfacts.1 c hc
          rw [hslice] at this
          refine ⟨fun b0 hb0 => ?_, this.2.1, by omega⟩
          cases hb0
          omega
        · refine ⟨fun c hc => ?_, List.pairwise_singleton _ _⟩
          rcases List.mem_singleton.mp hc with rfl
          dsimp only
          refine ⟨fun b0 hb0 => ?_, by omega, by omega⟩
          cases hb0
          omega
    | cons b2 bs2 =>
      have hb12 : b.line < b2.line := (List.pairwise_cons.mp hsort).1 b2
        (List.mem_cons_self b2 bs2)
      have hb2lt : b2.line < lines.length := hlt b2
        (List.mem_cons_of_mem b (List.mem_cons_self b2 bs2))
      have hslice : (sliceLines lines b.line (b2.line - 1 + 1)).length
          = b2.line - b.line := by
        rw [sliceLines_length]; omega
      have hrestfacts := ihr
      unfold chunkLoop
      dsimp only
      split
      · -- candidate skipped: facts carry over with a weaker lower bound
        refine ⟨fun c hc => ?_, hrestfacts.2⟩
        have := hrestfacts.1 c hc
        refine ⟨fun b0 hb0 => ?_, this.2.1, this.2.2⟩
        cases hb0
        have := (this.1 b2 rfl)
        omega
      · split
        · next hbig =>
          have hfacts := splitLargeChunk_facts hash ct
            (sliceLines lines b.line (b2.line - 1 + 1)) b.line fp rp lang
            b.type b.name
          constructor
          · intro c hc
            rcases List.mem_append.mp hc with hc1 | hc2
            · have := hfacts.1 c hc1
              rw [hslice] at this
              refine ⟨fun b0 hb0 => ?_, this.2.1, by omega⟩
              cases hb0
              omega
            · have := hrestfacts.1 c hc2
              refine ⟨fun b0 hb0 => ?_, this.2.1, this.2.2⟩
              cases hb0
              have := this.1 b2 rfl
              omega
          · refine List.pairwise_append.mpr ⟨hfacts.2, hrestfacts.2, ?_⟩
            intro x hx y hy
            have hxf := hfacts.1 x hx
            rw [hslice] at hxf
            have hyf := (hrestfacts.1 y hy).1 b2 rfl
            omega
        · constructor
          · intro c hc
            rcases List.mem_cons.mp hc with rfl | hc2
            · dsimp only
              refine ⟨fun b0 hb0 => ?_, by omega, by omega⟩
              cases hb0
              omega
            · have := hrestfacts.1 c hc2
              refine ⟨fun b0 hb0 => ?_, this.2.1, this.2.2⟩
              cases hb0
              have := this.1 b2 rfl
              omega
          · refine List.Pairwise.cons ?_ hrestfacts.2
            intro y hy
            have := (hrestfacts.1 y hy).1 b2 rfl
            dsimp only
            omega

/-- C4.  Chunker output invariants: every chunk has a 1-indexed, inclusive,
nonempty line range (`1 ≤ startLine ≤ endLine ≤ number of lines`), and the
output list is pairwise disjoint with strictly increasing ranges
(`a.endLine < b.startLine` for `a` before `b`), on every code path —
boundary chunks, oversized-chunk splitting, the prepended preamble chunk,
and size-based chunking.  Sorting by `startLine` therefore leaves the list
unchanged and yields strictly increasing, non-overlapping ranges. -/
theorem codeChunk_line_ranges (hash : Str → Str) (ct : Str → ℕ)
    (matchLine : Str → Option (Str × Option Str)) (hasPatterns : Bool)
    (content fp rp lang : Str) :
    (∀ c ∈ codeChunk hash ct matchLine hasPatterns content fp rp lang,
        1 ≤ c.startLine ∧ c.startLine ≤ c.endLine ∧
          c.endLine ≤ (splitLines content).length)
    ∧ (codeChunk hash ct matchLine hasPatterns content fp rp lang).Pairwise
        (fun a b => a.endLine < b.startLine) := by
  unfold codeChunk
  dsimp only
  split
  · exact chunkBySize_facts hash ct content fp rp lang
  · split
    · exact chunkBySize_facts hash ct content fp rp lang
    · next b0 bs heq =>
      have hfb := findBoundariesAux_facts matchLine (splitLines content) 0
      unfold findBoundaries at heq
      rw [heq] at hfb
      have hsort := hfb.2
      have hbound : ∀ x ∈ b0 :: bs, x.line < (splitLines content).length := by
        intro x hx
        have := hfb.1 x hx
        omega
      have hloopf := chunkLoop_facts hash ct (splitLines content) fp rp lang
        (decide (0 < bs.length)) (b0 :: bs) hsort hbound
      split
      · next hpre =>
        have hb0 : 0 < b0.line := hpre.1
        have hb0lt : b0.line < (splitLines content).length :=
          hbound b0 (List.mem_cons_self b0 bs)
        constructor
        · intro c hc
          rcases List.mem_cons.mp hc with rfl | hc2
          · dsimp only
            exact ⟨le_refl 1, by omega, by omega⟩
          · have := hloopf.1 c hc2
            have hhead := this.1 b0 rfl
            exact ⟨by omega, this.2.1, this.2.2⟩
        · refine List.Pairwise.cons ?_ hloopf.2
          intro y hy
          have := (hloopf.1 y hy).1 b0 rfl
          dsimp only
          omega
      · constructor
        · intro c hc
          have := hloopf.1 c hc
          have hhead := this.1 b0 rfl
          exact ⟨by omega, this.2.1, this.2.2⟩
        · exact hloopf.2
